import Mathlib

/-!
Verification of the pairwise sequence-alignment program (Needleman-Wunsch /
Smith-Waterman) against its natural-language specification.

The program is shallowly embedded: `score_matrix` and `directional_matrix`
model `SequenceAlignment._create_score_and_directional_matrices`, the
fuel-driven `traceback_loop` together with `initial_states`,
`traceback_max_score` and `tracebackRun` model `SequenceAlignment._traceback`,
and `load_substitution_matrix` / `alignments_lookup` model
`SequenceAlignment._load_substitution_matrix` including the exact semantics
of its nested `defaultdict` construction.

Sequences are lists of characters; partial alignments are accumulated by
appending, exactly as the source appends one character per traceback step.
The Python expressions `self.seq1[-posY]` and `self.seq2[-posX]` (negative
indices) are modelled by `negGet`.
-/

namespace SeqAlign

/-- A cell with three directions for backtracking (class `DirectionalCell`). -/
structure DirectionalCell where
  up : Bool
  diagonal : Bool
  left : Bool
deriving DecidableEq

/-- `int(up) + int(diagonal) + int(left)`, as computed in `DirectionalCell.__init__`. -/
def DirectionalCell.num_directions (c : DirectionalCell) : Nat :=
  c.up.toNat + c.diagonal.toNat + c.left.toNat

/-- One row of the dynamic-programming score matrix, built left to right from
the previous row `prev`, the boundary value `base` at column 0, and the row's
own symbol `c1` of `seq1`.  Cell `j+1` is computed exactly as the loop body of
`_create_score_and_directional_matrices`: `diagonal_score` from `prev j`,
`up_score` from `prev (j+1)`, `left_score` from the cell just built, the best
of the three, clamped to a minimum of 0 under the local strategy. -/
def score_row_next (strategy : String) (sub : Char → Char → Int) (gap : Int)
    (s2 : List Char) (c1 : Char) (prev : Nat → Int) (base : Int) : Nat → Int
  | 0 => base
  | j + 1 =>
    let diagonal_score := prev j + sub c1 (s2.getD j '-')
    let up_score := prev (j + 1) + gap
    let left_score := score_row_next strategy sub gap s2 c1 prev base j + gap
    let best_score := max up_score (max diagonal_score left_score)
    if strategy = "local" then max best_score 0 else best_score

/-- The score matrix of `_create_score_and_directional_matrices`, row by row:
row 0 holds `j * gap_penalty` (with `0` at column 0), row `i+1` starts with
`(i+1) * gap_penalty` at column 0 and is filled by the loop body. -/
def score_matrix (strategy : String) (sub : Char → Char → Int) (gap : Int)
    (s1 s2 : List Char) : Nat → Nat → Int
  | 0 => fun j => (j : Int) * gap
  | i + 1 =>
    score_row_next strategy sub gap s2 (s1.getD i '-')
      (score_matrix strategy sub gap s1 s2 i) (((i : Int) + 1) * gap)

/-- The directional matrix of `_create_score_and_directional_matrices`.
Cell (0,0) keeps the shared default `DirectionalCell()` (never overwritten);
the column-0 edge is filled with `DirectionalCell(up=True)`, the row-0 edge
with `DirectionalCell(left=True)`; an inner cell's flags record which of the
three candidate scores equal the stored best score. -/
def directional_matrix (strategy : String) (sub : Char → Char → Int) (gap : Int)
    (s1 s2 : List Char) (i j : Nat) : DirectionalCell :=
  match i, j with
  | 0, 0 => ⟨false, false, false⟩
  | _ + 1, 0 => ⟨true, false, false⟩
  | 0, _ + 1 => ⟨false, false, true⟩
  | i + 1, j + 1 =>
    let diagonal_score :=
      score_matrix strategy sub gap s1 s2 i j + sub (s1.getD i '-') (s2.getD j '-')
    let up_score := score_matrix strategy sub gap s1 s2 i (j + 1) + gap
    let left_score := score_matrix strategy sub gap s1 s2 (i + 1) j + gap
    let best_score := score_matrix strategy sub gap s1 s2 (i + 1) (j + 1)
    ⟨decide (up_score = best_score), decide (diagonal_score = best_score),
      decide (left_score = best_score)⟩

/-- Association-list update, mirroring the dict assignment `d[k] = v`. -/
def dictInsert {β : Type} (d : List (Char × β)) (k : Char) (v : β) : List (Char × β) :=
  match d with
  | [] => [(k, v)]
  | (k0, v0) :: rest =>
    if k0 = k then (k, v) :: rest else (k0, v0) :: dictInsert rest k v

/-- Association-list read of `d[k]` with a default for a missing key. -/
def dictGet {β : Type} (d : List (Char × β)) (k : Char) (dflt : β) : β :=
  match d with
  | [] => dflt
  | (k0, v0) :: rest => if k0 = k then v0 else dictGet rest k dflt

/-- The nested mapping `self.alignments` built by `_load_substitution_matrix`
from the row symbols, column symbols and entries of the CSV table:
`alignments[nucleotide1][nucleotide2] = substitution_matrix[i][j]` for every
`i`, `j`. -/
def load_substitution_matrix (rows cols : List Char) (mat : Nat → Nat → Int) :
    List (Char × List (Char × Int)) :=
  (rows.enum).foldl
    (fun d p =>
      dictInsert d p.2
        ((cols.enum).foldl
          (fun inner q => dictInsert inner q.2 (mat p.1 q.1))
          (dictGet d p.2 [])))
    []

/-- The read `self.alignments[a][b]`.  The outer `defaultdict` supplies a fresh
empty inner mapping for a missing outer key.  The inner `defaultdict` was
created with `default_factory = fun x => 0`, a one-parameter function, and
Python invokes `default_factory` with no arguments, so a missing inner key
raises a `TypeError` instead of producing 0; the failure is modelled as
`Except.error`. -/
def alignments_lookup (d : List (Char × List (Char × Int))) (a b : Char) :
    Except String Int :=
  let inner := dictGet d a []
  match inner.find? (fun q => q.1 = b) with
  | some q => Except.ok q.2
  | none => Except.error "TypeError: lambda missing 1 required positional argument"

/-- A pending traceback state `[posY, posX, seq1, seq2]`: the current cell and
the two partial aligned strings accumulated so far. -/
structure AlignState where
  posY : Nat
  posX : Nat
  a1 : List Char
  a2 : List Char
deriving DecidableEq

/-- Python `s[-k]`: for `1 ≤ k ≤ s.length` this is the element at position
`s.length - k`; `s[-0]` is `s[0]`.  Out of that range Python raises
`IndexError`; the model totalizes those cases with `'-'` (the safety claim
shows the traceback only evaluates this in range). -/
def negGet (s : List Char) (k : Nat) : Char :=
  if k = 0 then s.getD 0 '-' else s.getD (s.length - k) '-'

/-- Travel finishes when no direction flag is set, or, in local alignment,
when the cell's score is 0. -/
def is_terminal (dm : Nat → Nat → DirectionalCell) (sm : Nat → Nat → Int)
    (strategy : String) (st : AlignState) : Prop :=
  (dm st.posY st.posX).num_directions = 0 ∨
    (strategy = "local" ∧ sm st.posY st.posX = 0)

instance (dm : Nat → Nat → DirectionalCell) (sm : Nat → Nat → Int)
    (strategy : String) (st : AlignState) :
    Decidable (is_terminal dm sm strategy st) := by
  unfold is_terminal
  infer_instance

/-- The new pending states produced from a non-terminal state, in the order
they are popped: the source appends the `left`, `up`, `diagonal` branches to
the end of the worklist and pops from the end, so `diagonal` is explored
first, then `up`, then `left`.  Each branch appends one character to each
partial string: `seq2[-posX]` or a gap to the second, `seq1[-posY]` or a gap
to the first. -/
def push_states (dm : Nat → Nat → DirectionalCell) (s1 s2 : List Char)
    (st : AlignState) : List AlignState :=
  let cell := dm st.posY st.posX
  (if cell.diagonal then
      [⟨st.posY - 1, st.posX - 1, st.a1 ++ [negGet s1 st.posY], st.a2 ++ [negGet s2 st.posX]⟩]
    else []) ++
  (if cell.up then
      [⟨st.posY - 1, st.posX, st.a1 ++ [negGet s1 st.posY], st.a2 ++ ['-']⟩]
    else []) ++
  (if cell.left then
      [⟨st.posY, st.posX - 1, st.a1 ++ ['-'], st.a2 ++ [negGet s2 st.posX]⟩]
    else [])

/-- The push rule exactly as claim C2 states it, for comparison with
`push_states`: 0-based symbol indices taken relative to the current position,
`seq1[row-1]` and `seq2[col-1]`. -/
def push_states_claimed (dm : Nat → Nat → DirectionalCell) (s1 s2 : List Char)
    (st : AlignState) : List AlignState :=
  let cell := dm st.posY st.posX
  (if cell.diagonal then
      [⟨st.posY - 1, st.posX - 1, st.a1 ++ [s1.getD (st.posY - 1) '-'],
        st.a2 ++ [s2.getD (st.posX - 1) '-']⟩]
    else []) ++
  (if cell.up then
      [⟨st.posY - 1, st.posX, st.a1 ++ [s1.getD (st.posY - 1) '-'], st.a2 ++ ['-']⟩]
    else []) ++
  (if cell.left then
      [⟨st.posY, st.posX - 1, st.a1 ++ ['-'], st.a2 ++ [s2.getD (st.posX - 1) '-']⟩]
    else [])

/-- `solution_sequences.add(p)`: a set insertion, modelled on a duplicate-free
list. -/
def addSolution (p : List Char × List Char) (done : List (List Char × List Char)) :
    List (List Char × List Char) :=
  if p ∈ done then done else p :: done

/-- The traceback search loop of `_traceback`: repeatedly pop the most recent
pending state while pending states remain and fewer than `n` distinct
solutions are completed; a terminal state adds its pair of partial strings to
the solution set, any other state is expanded by `push_states`.  The loop is
driven by explicit fuel; `traceback_loop_fuel_eq` below shows any fuel above
`stackMeasure` of the worklist yields the same (terminated) result. -/
def traceback_loop (dm : Nat → Nat → DirectionalCell) (sm : Nat → Nat → Int)
    (strategy : String) (s1 s2 : List Char) (n : Nat) :
    Nat → List AlignState → List (List Char × List Char) → List (List Char × List Char)
  | 0, _, done => done
  | _ + 1, [], done => done
  | fuel + 1, st :: rest, done =>
    if n ≤ done.length then done
    else if is_terminal dm sm strategy st then
      traceback_loop dm sm strategy s1 s2 n fuel rest (addSolution (st.a1, st.a2) done)
    else
      traceback_loop dm sm strategy s1 s2 n fuel (push_states dm s1 s2 st ++ rest) done

/-- Weight of one pending state, used to bound the traceback search. -/
def stateWeight (st : AlignState) : Nat := 4 ^ (st.posY + st.posX)

/-- Total weight of the pending worklist. -/
def stackMeasure (l : List AlignState) : Nat := (l.map stateWeight).sum

/-- `np.max(self.score_matrix)`: the maximum entry anywhere in the
`(m+1) × (n+1)` score matrix. -/
def matrix_max (sm : Nat → Nat → Int) (m n : Nat) : Int :=
  ((List.range (m + 1)).flatMap
      (fun i => (List.range (n + 1)).map (fun j => sm i j))).foldl max (sm 0 0)

/-- `np.argwhere(self.score_matrix == max_score).tolist()`: the positions of
the cells holding `mx`, in row-major order. -/
def argwhere_eq (sm : Nat → Nat → Int) (m n : Nat) (mx : Int) : List (Nat × Nat) :=
  (List.range (m + 1)).flatMap
    (fun i => (List.range (n + 1)).filterMap
      (fun j => if sm i j = mx then some (i, j) else none))

/-- The `max_score` chosen by the strategy match of `_traceback`: the
bottom-right cell for global alignment, the matrix maximum for local. -/
def traceback_max_score (strategy : String) (sm : Nat → Nat → Int) (m n : Nat) : Int :=
  if strategy = "global" then sm m n else matrix_max sm m n

/-- The initial pending states of `_traceback`, head = next to pop: for global
alignment the single state at the bottom-right cell `(m, n)` with empty
partial strings; for local alignment one state per cell holding the matrix
maximum (the source builds them in row-major order and pops from the end,
hence the reversal). -/
def initial_states (strategy : String) (sm : Nat → Nat → Int) (m n : Nat) :
    List AlignState :=
  if strategy = "global" then [⟨m, n, [], []⟩]
  else
    ((argwhere_eq sm m n (matrix_max sm m n)).reverse).map
      (fun p => ⟨p.1, p.2, [], []⟩)

/-- Python string comparison on `List Char` (lexicographic by code point;
a proper front segment precedes the longer string). -/
def strLtB : List Char → List Char → Bool
  | [], [] => false
  | [], _ :: _ => true
  | _ :: _, [] => false
  | a :: as, b :: bs => if a < b then true else if b < a then false else strLtB as bs

/-- Python tuple comparison on pairs of strings. -/
def pairLtB (p q : List Char × List Char) : Bool :=
  strLtB p.1 q.1 || (p.1 = q.1 && strLtB p.2 q.2)

/-- Descending order used by `sorted(solution_sequences, reverse=True)`. -/
def pair_desc (p q : List Char × List Char) : Prop := pairLtB p q = false

instance : DecidableRel pair_desc := fun p q => by
  unfold pair_desc
  infer_instance

/-- `sorted(solution_sequences, reverse=True)`: the solution set arranged in
descending lexicographic order. -/
def sortedDesc (l : List (List Char × List Char)) : List (List Char × List Char) :=
  List.insertionSort pair_desc l

/-- The full `_traceback(n)`: select `max_score` and the initial states by
strategy (any other strategy raises `AttributeError`), run the search loop,
and return the sorted solution set together with `max_score`. -/
def traceback (strategy : String) (sub : Char → Char → Int) (gap : Int)
    (s1 s2 : List Char) (n : Nat) :
    Except String (List (List Char × List Char) × Int) :=
  if strategy = "global" ∨ strategy = "local" then
    let sm := score_matrix strategy sub gap s1 s2
    let dm := directional_matrix strategy sub gap s1 s2
    let init := initial_states strategy sm s1.length s2.length
    Except.ok
      (sortedDesc (traceback_loop dm sm strategy s1 s2 n (stackMeasure init + 1) init []),
        traceback_max_score strategy sm s1.length s2.length)
  else Except.error "Strategy must be global or local."

/-- The score an alignment pair achieves, read column by column as claim C1
states it: the substitution score where both columns hold a symbol, the gap
penalty for every column containing the gap symbol. -/
def alignment_pair_score (sub : Char → Char → Int) (gap : Int) :
    List Char → List Char → Int
  | a :: as, b :: bs =>
    (if a = '-' ∨ b = '-' then gap else sub a b) + alignment_pair_score sub gap as bs
  | _, _ => 0

/-- Removing every gap symbol from an aligned string. -/
def stripGaps (l : List Char) : List Char := l.filter (fun ch => ch != '-')

/-! ### Unfolding equations for the matrices -/

theorem score_matrix_zero (strategy : String) (sub : Char → Char → Int) (gap : Int)
    (s1 s2 : List Char) (j : Nat) :
    score_matrix strategy sub gap s1 s2 0 j = (j : Int) * gap := rfl

theorem score_matrix_base (strategy : String) (sub : Char → Char → Int) (gap : Int)
    (s1 s2 : List Char) (i : Nat) :
    score_matrix strategy sub gap s1 s2 (i + 1) 0 = ((i : Int) + 1) * gap := rfl

theorem score_matrix_inner (strategy : String) (sub : Char → Char → Int) (gap : Int)
    (s1 s2 : List Char) (i j : Nat) :
    score_matrix strategy sub gap s1 s2 (i + 1) (j + 1) =
      (if strategy = "local" then
        max (max (score_matrix strategy sub gap s1 s2 i (j + 1) + gap)
          (max (score_matrix strategy sub gap s1 s2 i j + sub (s1.getD i '-') (s2.getD j '-'))
            (score_matrix strategy sub gap s1 s2 (i + 1) j + gap))) 0
      else
        max (score_matrix strategy sub gap s1 s2 i (j + 1) + gap)
          (max (score_matrix strategy sub gap s1 s2 i j + sub (s1.getD i '-') (s2.getD j '-'))
            (score_matrix strategy sub gap s1 s2 (i + 1) j + gap))) := rfl

theorem directional_matrix_inner (strategy : String) (sub : Char → Char → Int) (gap : Int)
    (s1 s2 : List Char) (i j : Nat) :
    directional_matrix strategy sub gap s1 s2 (i + 1) (j + 1) =
      ⟨decide (score_matrix strategy sub gap s1 s2 i (j + 1) + gap =
          score_matrix strategy sub gap s1 s2 (i + 1) (j + 1)),
        decide (score_matrix strategy sub gap s1 s2 i j + sub (s1.getD i '-') (s2.getD j '-') =
          score_matrix strategy sub gap s1 s2 (i + 1) (j + 1)),
        decide (score_matrix strategy sub gap s1 s2 (i + 1) j + gap =
          score_matrix strategy sub gap s1 s2 (i + 1) (j + 1))⟩ := rfl

/-! ### Direction flags force positive indices -/

theorem dm_up_pos (strategy : String) (sub : Char → Char → Int) (gap : Int)
    (s1 s2 : List Char) (i j : Nat)
    (h : (directional_matrix strategy sub gap s1 s2 i j).up = true) : 1 ≤ i := by
  rcases i with _ | i
  · rcases j with _ | j <;> simp [directional_matrix] at h
  · omega

theorem dm_left_pos (strategy : String) (sub : Char → Char → Int) (gap : Int)
    (s1 s2 : List Char) (i j : Nat)
    (h : (directional_matrix strategy sub gap s1 s2 i j).left = true) : 1 ≤ j := by
  rcases j with _ | j
  · rcases i with _ | i <;> simp [directional_matrix] at h
  · omega

theorem dm_diag_pos (strategy : String) (sub : Char → Char → Int) (gap : Int)
    (s1 s2 : List Char) (i j : Nat)
    (h : (directional_matrix strategy sub gap s1 s2 i j).diagonal = true) :
    1 ≤ i ∧ 1 ≤ j := by
  rcases i with _ | i <;> rcases j with _ | j
  · simp [directional_matrix] at h
  · simp [directional_matrix] at h
  · simp [directional_matrix] at h
  · omega

/-- In global alignment an inner or edge cell always keeps at least one flag:
only cell (0,0) is a terminus. -/
theorem dm_global_zero_flags (sub : Char → Char → Int) (gap : Int)
    (s1 s2 : List Char) (i j : Nat)
    (h : (directional_matrix "global" sub gap s1 s2 i j).num_directions = 0) :
    i = 0 ∧ j = 0 := by
  rcases i with _ | i <;> rcases j with _ | j
  · exact ⟨rfl, rfl⟩
  · simp [directional_matrix, DirectionalCell.num_directions] at h
  · simp [directional_matrix, DirectionalCell.num_directions] at h
  · exfalso
    rw [directional_matrix_inner] at h
    simp only [DirectionalCell.num_directions] at h
    have hbest : score_matrix "global" sub gap s1 s2 (i + 1) (j + 1) =
        max (score_matrix "global" sub gap s1 s2 i (j + 1) + gap)
          (max (score_matrix "global" sub gap s1 s2 i j + sub (s1.getD i '-') (s2.getD j '-'))
            (score_matrix "global" sub gap s1 s2 (i + 1) j + gap)) := by
      rw [score_matrix_inner]
      simp
    rcases max_choice (score_matrix "global" sub gap s1 s2 i (j + 1) + gap)
        (max (score_matrix "global" sub gap s1 s2 i j + sub (s1.getD i '-') (s2.getD j '-'))
          (score_matrix "global" sub gap s1 s2 (i + 1) j + gap)) with hc | hc
    · rw [hc] at hbest
      simp [hbest] at h
    · rcases max_choice (score_matrix "global" sub gap s1 s2 i j +
          sub (s1.getD i '-') (s2.getD j '-'))
          (score_matrix "global" sub gap s1 s2 (i + 1) j + gap) with hd | hd <;>
        rw [hc, hd] at hbest <;> simp [hbest] at h

/-! ### The descending pair order used by the final sort -/

theorem strLtB_irrefl : ∀ a : List Char, strLtB a a = false
  | [] => rfl
  | x :: xs => by simp [strLtB, strLtB_irrefl xs]

theorem strLtB_trans : ∀ a b c : List Char,
    strLtB a b = true → strLtB b c = true → strLtB a c = true
  | [], [], _, h1, _ => by simp [strLtB] at h1
  | [], _ :: _, [], _, h2 => by simp [strLtB] at h2
  | [], _ :: _, _ :: _, _, _ => by simp [strLtB]
  | _ :: _, [], _, h1, _ => by simp [strLtB] at h1
  | _ :: _, _ :: _, [], _, h2 => by simp [strLtB] at h2
  | x :: xs, y :: ys, z :: zs, h1, h2 => by
    simp only [strLtB] at h1 h2 ⊢
    rcases lt_trichotomy x y with hxy | hxy | hxy
    · rcases lt_trichotomy y z with hyz | hyz | hyz
      · simp [lt_trans hxy hyz]
      · subst hyz
        simp [hxy]
      · rw [if_neg (asymm hyz), if_pos hyz] at h2
        exact absurd h2 (by simp)
    · subst hxy
      rw [if_neg (lt_irrefl x), if_neg (lt_irrefl x)] at h1
      rcases lt_trichotomy x z with hyz | hyz | hyz
      · simp [hyz]
      · subst hyz
        rw [if_neg (lt_irrefl x), if_neg (lt_irrefl x)] at h2
        rw [if_neg (lt_irrefl x), if_neg (lt_irrefl x)]
        exact strLtB_trans xs ys zs h1 h2
      · rw [if_neg (asymm hyz), if_pos hyz] at h2
        exact absurd h2 (by simp)
    · rw [if_neg (asymm hxy), if_pos hxy] at h1
      exact absurd h1 (by simp)

theorem strLtB_eq_of_not : ∀ a b : List Char,
    strLtB a b = false → strLtB b a = false → a = b
  | [], [], _, _ => rfl
  | [], _ :: _, h1, _ => by simp [strLtB] at h1
  | _ :: _, [], _, h2 => by simp [strLtB] at h2
  | x :: xs, y :: ys, h1, h2 => by
    simp only [strLtB] at h1 h2
    rcases lt_trichotomy x y with hxy | hxy | hxy
    · rw [if_pos hxy] at h1
      exact absurd h1 (by simp)
    · subst hxy
      rw [if_neg (lt_irrefl x), if_neg (lt_irrefl x)] at h1 h2
      rw [strLtB_eq_of_not xs ys h1 h2]
    · rw [if_pos hxy] at h2
      exact absurd h2 (by simp)

theorem pairLtB_irrefl (p : List Char × List Char) : pairLtB p p = false := by
  simp [pairLtB, strLtB_irrefl]

theorem pairLtB_trans (p q s : List Char × List Char)
    (h1 : pairLtB p q = true) (h2 : pairLtB q s = true) : pairLtB p s = true := by
  simp only [pairLtB, Bool.or_eq_true, Bool.and_eq_true, decide_eq_true_eq] at h1 h2 ⊢
  rcases h1 with h1 | ⟨h1e, h1s⟩
  · rcases h2 with h2 | ⟨h2e, h2s⟩
    · exact Or.inl (strLtB_trans _ _ _ h1 h2)
    · rw [← h2e]
      exact Or.inl h1
  · rcases h2 with h2 | ⟨h2e, h2s⟩
    · rw [h1e]
      exact Or.inl h2
    · exact Or.inr ⟨h1e.trans h2e, strLtB_trans _ _ _ h1s h2s⟩

theorem pairLtB_eq_of_not (p q : List Char × List Char)
    (h1 : pairLtB p q = false) (h2 : pairLtB q p = false) : p = q := by
  simp only [pairLtB, Bool.or_eq_false_iff, Bool.and_eq_false_iff,
    decide_eq_false_iff_not] at h1 h2
  obtain ⟨h1a, h1b⟩ := h1
  obtain ⟨h2a, h2b⟩ := h2
  have he : p.1 = q.1 := strLtB_eq_of_not _ _ h1a h2a
  rcases h1b with h | h
  · exact absurd he h
  · rcases h2b with h' | h'
    · exact absurd he.symm h'
    · exact Prod.ext he (strLtB_eq_of_not _ _ h h')

instance : IsTrans (List Char × List Char) pair_desc := by
  constructor
  intro p q s h1 h2
  unfold pair_desc at h1 h2 ⊢
  cases hps : pairLtB p s with
  | false => rfl
  | true =>
    cases hqp : pairLtB q p with
    | false =>
      have hpq : p = q := pairLtB_eq_of_not p q h1 hqp
      rw [← hpq, hps] at h2
      exact absurd h2 (by simp)
    | true =>
      have h3 := pairLtB_trans q p s hqp hps
      rw [h3] at h2
      exact absurd h2 (by simp)

instance : IsTotal (List Char × List Char) pair_desc := by
  constructor
  intro p q
  unfold pair_desc
  cases h1 : pairLtB p q with
  | false => exact Or.inl rfl
  | true =>
    cases h2 : pairLtB q p with
    | false => exact Or.inr rfl
    | true =>
      have h3 := pairLtB_trans p q p h1 h2
      rw [pairLtB_irrefl] at h3
      exact absurd h3 (by simp)

/-! ### Membership and weight of pushed states -/

theorem mem_push_states {dm : Nat → Nat → DirectionalCell} {s1 s2 : List Char}
    {st st' : AlignState} :
    st' ∈ push_states dm s1 s2 st ↔
      ((dm st.posY st.posX).diagonal = true ∧
        st' = ⟨st.posY - 1, st.posX - 1, st.a1 ++ [negGet s1 st.posY],
          st.a2 ++ [negGet s2 st.posX]⟩) ∨
      ((dm st.posY st.posX).up = true ∧
        st' = ⟨st.posY - 1, st.posX, st.a1 ++ [negGet s1 st.posY], st.a2 ++ ['-']⟩) ∨
      ((dm st.posY st.posX).left = true ∧
        st' = ⟨st.posY, st.posX - 1, st.a1 ++ ['-'], st.a2 ++ [negGet s2 st.posX]⟩) := by
  unfold push_states
  cases hd : (dm st.posY st.posX).diagonal <;> cases hu : (dm st.posY st.posX).up <;>
    cases hl : (dm st.posY st.posX).left <;> simp [hd, hu, hl]

/-- No flag is set at a state where every flag would step out of the matrix,
so a non-terminal state sits at a cell with at least one flag. -/
theorem push_states_weight (strategy : String) (sub : Char → Char → Int) (gap : Int)
    (s1 s2 : List Char) (st st' : AlignState)
    (h : st' ∈ push_states (directional_matrix strategy sub gap s1 s2) s1 s2 st) :
    st'.posY + st'.posX < st.posY + st.posX := by
  rcases mem_push_states.mp h with ⟨hf, he⟩ | ⟨hf, he⟩ | ⟨hf, he⟩
  · have := dm_diag_pos strategy sub gap s1 s2 _ _ hf
    subst he
    simp only []
    omega
  · have := dm_up_pos strategy sub gap s1 s2 _ _ hf
    subst he
    simp only []
    omega
  · have := dm_left_pos strategy sub gap s1 s2 _ _ hf
    subst he
    simp only []
    omega

theorem stackMeasure_append (a b : List AlignState) :
    stackMeasure (a ++ b) = stackMeasure a + stackMeasure b := by
  simp [stackMeasure]

theorem stackMeasure_cons (st : AlignState) (l : List AlignState) :
    stackMeasure (st :: l) = stateWeight st + stackMeasure l := by
  simp [stackMeasure]

theorem stateWeight_pos (st : AlignState) : 1 ≤ stateWeight st :=
  Nat.one_le_iff_ne_zero.mpr (pow_ne_zero _ (by omega))

theorem stackMeasure_push_lt (strategy : String) (sub : Char → Char → Int) (gap : Int)
    (s1 s2 : List Char) (st : AlignState)
    (hterm : ¬ is_terminal (directional_matrix strategy sub gap s1 s2)
      (score_matrix strategy sub gap s1 s2) strategy st) :
    stackMeasure (push_states (directional_matrix strategy sub gap s1 s2) s1 s2 st) <
      stateWeight st := by
  have hone : ∀ st' : AlignState,
      st' ∈ push_states (directional_matrix strategy sub gap s1 s2) s1 s2 st →
      stateWeight st' ≤ 4 ^ (st.posY + st.posX - 1) := by
    intro st' h
    have hlt := push_states_weight strategy sub gap s1 s2 st st' h
    exact Nat.pow_le_pow_right (by omega) (by omega)
  have hpos : 1 ≤ st.posY + st.posX := by
    by_contra hc
    push_neg at hc
    have hy : st.posY = 0 := by omega
    have hx : st.posX = 0 := by omega
    apply hterm
    left
    have hu : (directional_matrix strategy sub gap s1 s2 st.posY st.posX).up = false := by
      cases hcase : (directional_matrix strategy sub gap s1 s2 st.posY st.posX).up
      · rfl
      · have := dm_up_pos strategy sub gap s1 s2 _ _ hcase
        omega
    have hd : (directional_matrix strategy sub gap s1 s2 st.posY st.posX).diagonal = false := by
      cases hcase : (directional_matrix strategy sub gap s1 s2 st.posY st.posX).diagonal
      · rfl
      · have := (dm_diag_pos strategy sub gap s1 s2 _ _ hcase).1
        omega
    have hl : (directional_matrix strategy sub gap s1 s2 st.posY st.posX).left = false := by
      cases hcase : (directional_matrix strategy sub gap s1 s2 st.posY st.posX).left
      · rfl
      · have := dm_left_pos strategy sub gap s1 s2 _ _ hcase
        omega
    simp [DirectionalCell.num_directions, hu, hd, hl]
  unfold push_states
  have hw : stateWeight st = 4 ^ (st.posY + st.posX) := rfl
  have hstep : 4 ^ (st.posY + st.posX - 1) * 3 < 4 ^ (st.posY + st.posX) := by
    have h4 : 4 ^ (st.posY + st.posX) = 4 ^ (st.posY + st.posX - 1) * 4 := by
      rw [← pow_succ]
      congr 1
      omega
    have hp : 0 < 4 ^ (st.posY + st.posX - 1) := Nat.pos_pow_of_pos _ (by omega)
    omega
  rw [stackMeasure_append, stackMeasure_append, hw]
  have hA : stackMeasure (if (directional_matrix strategy sub gap s1 s2 st.posY st.posX).diagonal
      then [(⟨st.posY - 1, st.posX - 1, st.a1 ++ [negGet s1 st.posY],
        st.a2 ++ [negGet s2 st.posX]⟩ : AlignState)] else []) ≤
      4 ^ (st.posY + st.posX - 1) := by
    split_ifs with hf
    · rw [stackMeasure_cons]
      have := hone _ (mem_push_states.mpr (Or.inl ⟨hf, rfl⟩))
      simp [stackMeasure]
      exact this
    · simp [stackMeasure]
  have hB : stackMeasure (if (directional_matrix strategy sub gap s1 s2 st.posY st.posX).up
      then [(⟨st.posY - 1, st.posX, st.a1 ++ [negGet s1 st.posY],
        st.a2 ++ ['-']⟩ : AlignState)] else []) ≤
      4 ^ (st.posY + st.posX - 1) := by
    split_ifs with hf
    · rw [stackMeasure_cons]
      have := hone _ (mem_push_states.mpr (Or.inr (Or.inl ⟨hf, rfl⟩)))
      simp [stackMeasure]
      exact this
    · simp [stackMeasure]
  have hC : stackMeasure (if (directional_matrix strategy sub gap s1 s2 st.posY st.posX).left
      then [(⟨st.posY, st.posX - 1, st.a1 ++ ['-'],
        st.a2 ++ [negGet s2 st.posX]⟩ : AlignState)] else []) ≤
      4 ^ (st.posY + st.posX - 1) := by
    split_ifs with hf
    · rw [stackMeasure_cons]
      have := hone _ (mem_push_states.mpr (Or.inr (Or.inr ⟨hf, rfl⟩)))
      simp [stackMeasure]
      exact this
    · simp [stackMeasure]
  omega

/-- Two runs of the search loop with ample fuel agree: the loop terminates. -/
theorem traceback_loop_fuel_eq (strategy : String) (sub : Char → Char → Int) (gap : Int)
    (s1 s2 : List Char) (n : Nat) :
    ∀ (k f g : Nat) (stack : List AlignState) (done : List (List Char × List Char)),
      stackMeasure stack ≤ k → stackMeasure stack < f → stackMeasure stack < g →
      traceback_loop (directional_matrix strategy sub gap s1 s2)
          (score_matrix strategy sub gap s1 s2) strategy s1 s2 n f stack done =
        traceback_loop (directional_matrix strategy sub gap s1 s2)
          (score_matrix strategy sub gap s1 s2) strategy s1 s2 n g stack done := by
  intro k
  induction k with
  | zero =>
    intro f g stack done hk hf hg
    match stack with
    | [] =>
      match f, g, hf, hg with
      | f + 1, g + 1, _, _ => rfl
    | st :: rest =>
      exfalso
      have := stateWeight_pos st
      rw [stackMeasure_cons] at hk
      omega
  | succ k ih =>
    intro f g stack done hk hf hg
    match stack with
    | [] =>
      match f, g, hf, hg with
      | f + 1, g + 1, _, _ => rfl
    | st :: rest =>
      have hwpos := stateWeight_pos st
      rw [stackMeasure_cons] at hk hf hg
      match f, g, hf, hg with
      | f + 1, g + 1, hf, hg =>
        show traceback_loop _ _ _ _ _ _ (f + 1) (st :: rest) done =
          traceback_loop _ _ _ _ _ _ (g + 1) (st :: rest) done
        unfold traceback_loop
        split_ifs with h1 h2
        · rfl
        · apply ih
          · omega
          · omega
          · omega
        · have hlt := stackMeasure_push_lt strategy sub gap s1 s2 st h2
          have happ := stackMeasure_append
            (push_states (directional_matrix strategy sub gap s1 s2) s1 s2 st) rest
          apply ih <;> omega

/-- The generic safety argument for the search loop: a property of states
preserved by expansion turns, at terminal states, into a property of every
completed pair. -/
theorem traceback_loop_invariant (dm : Nat → Nat → DirectionalCell)
    (sm : Nat → Nat → Int) (strategy : String) (s1 s2 : List Char) (n : Nat)
    (P : AlignState → Prop) (R : List Char × List Char → Prop)
    (Hpush : ∀ st, P st → ¬ is_terminal dm sm strategy st →
      ∀ st' ∈ push_states dm s1 s2 st, P st')
    (Hdone : ∀ st, P st → is_terminal dm sm strategy st → R (st.a1, st.a2)) :
    ∀ (fuel : Nat) (stack : List AlignState) (done : List (List Char × List Char)),
      (∀ st ∈ stack, P st) → (∀ p ∈ done, R p) →
      ∀ p ∈ traceback_loop dm sm strategy s1 s2 n fuel stack done, R p := by
  intro fuel
  induction fuel with
  | zero =>
    intro stack done _ hdone p hp
    exact hdone p hp
  | succ fuel ih =>
    intro stack done hstack hdone p hp
    match stack with
    | [] => exact hdone p hp
    | st :: rest =>
      unfold traceback_loop at hp
      split_ifs at hp with h1 h2
      · exact hdone p hp
      · refine ih rest _ (fun s hs => hstack s (List.mem_cons_of_mem st hs)) ?_ p hp
        intro q hq
        unfold addSolution at hq
        split_ifs at hq with hmem
        · exact hdone q hq
        · rcases List.mem_cons.mp hq with hqe | hq2
          · rw [hqe]
            exact Hdone st (hstack st (List.mem_cons_self st rest)) h2
          · exact hdone q hq2
      · refine ih _ done ?_ hdone p hp
        intro s hs
        rcases List.mem_append.mp hs with hs1 | hs2
        · exact Hpush st (hstack st (List.mem_cons_self st rest)) h2 s hs1
        · exact hstack s (List.mem_cons_of_mem st hs2)

/-- The completed-solution list never exceeds the requested count. -/
theorem traceback_loop_length_le (dm : Nat → Nat → DirectionalCell)
    (sm : Nat → Nat → Int) (strategy : String) (s1 s2 : List Char) (n : Nat) :
    ∀ (fuel : Nat) (stack : List AlignState) (done : List (List Char × List Char)),
      done.length ≤ n →
      (traceback_loop dm sm strategy s1 s2 n fuel stack done).length ≤ n := by
  intro fuel
  induction fuel with
  | zero => intro stack done h; exact h
  | succ fuel ih =>
    intro stack done h
    match stack with
    | [] => exact h
    | st :: rest =>
      unfold traceback_loop
      split_ifs with h1 h2
      · exact h
      · apply ih
        unfold addSolution
        split_ifs with hmem
        · exact h
        · simp only [List.length_cons]
          omega
      · exact ih _ _ h

/-- The completed-solution list stays duplicate-free: it models a set. -/
theorem traceback_loop_nodup (dm : Nat → Nat → DirectionalCell)
    (sm : Nat → Nat → Int) (strategy : String) (s1 s2 : List Char) (n : Nat) :
    ∀ (fuel : Nat) (stack : List AlignState) (done : List (List Char × List Char)),
      done.Nodup →
      (traceback_loop dm sm strategy s1 s2 n fuel stack done).Nodup := by
  intro fuel
  induction fuel with
  | zero => intro stack done h; exact h
  | succ fuel ih =>
    intro stack done h
    match stack with
    | [] => exact h
    | st :: rest =>
      unfold traceback_loop
      split_ifs with h1 h2
      · exact h
      · apply ih
        unfold addSolution
        split_ifs with hmem
        · exact h
        · exact List.Nodup.cons hmem h
      · exact ih _ _ h

/-- With `n = 0` the loop never pops a state. -/
theorem traceback_loop_zero (dm : Nat → Nat → DirectionalCell)
    (sm : Nat → Nat → Int) (strategy : String) (s1 s2 : List Char)
    (fuel : Nat) (stack : List AlignState) :
    traceback_loop dm sm strategy s1 s2 0 fuel stack [] = [] := by
  match fuel, stack with
  | 0, _ => rfl
  | _ + 1, [] => rfl
  | fuel + 1, st :: rest =>
    unfold traceback_loop
    simp

/-! ### The final sort -/

theorem sortedDesc_perm (l : List (List Char × List Char)) :
    List.Perm (sortedDesc l) l :=
  List.perm_insertionSort pair_desc l

theorem sortedDesc_mem (l : List (List Char × List Char)) (p : List Char × List Char) :
    p ∈ sortedDesc l ↔ p ∈ l :=
  (sortedDesc_perm l).mem_iff

theorem sortedDesc_sorted (l : List (List Char × List Char)) :
    (sortedDesc l).Pairwise pair_desc :=
  List.sorted_insertionSort pair_desc l

/-! ### Maximum of the score matrix and the argwhere list -/

theorem foldl_max_init_le : ∀ (l : List Int) (a : Int), a ≤ l.foldl max a
  | [], a => le_refl a
  | x :: l, a => le_trans (le_max_left a x) (foldl_max_init_le l (max a x))

theorem foldl_max_mem_le : ∀ (l : List Int) (a x : Int), x ∈ l → x ≤ l.foldl max a
  | [], _, x, h => absurd h (List.not_mem_nil x)
  | y :: l, a, x, h => by
    rcases List.mem_cons.mp h with he | hm
    · subst he
      exact le_trans (le_max_right a x) (foldl_max_init_le l (max a x))
    · exact foldl_max_mem_le l (max a y) x hm

theorem foldl_max_attained : ∀ (l : List Int) (a : Int),
    l.foldl max a = a ∨ l.foldl max a ∈ l
  | [], _ => Or.inl rfl
  | x :: l, a => by
    rcases foldl_max_attained l (max a x) with h | h
    · rcases max_choice a x with hc | hc
      · exact Or.inl (by rw [List.foldl_cons, h, hc])
      · refine Or.inr ?_
        rw [List.foldl_cons, h, hc]
        exact List.mem_cons_self x l
    · exact Or.inr (List.mem_cons_of_mem x h)

theorem foldl_max_of_le : ∀ (l : List Int) (a : Int), (∀ x ∈ l, x ≤ a) → l.foldl max a = a
  | [], _, _ => rfl
  | x :: l, a, h => by
    have hx : max a x = a := max_eq_left (h x (List.mem_cons_self x l))
    rw [List.foldl_cons, hx]
    exact foldl_max_of_le l a (fun y hy => h y (List.mem_cons_of_mem x hy))

theorem mem_matrix_entries (sm : Nat → Nat → Int) (m n i j : Nat)
    (hi : i ≤ m) (hj : j ≤ n) :
    sm i j ∈ (List.range (m + 1)).flatMap
      (fun i => (List.range (n + 1)).map (fun j => sm i j)) := by
  rw [List.mem_flatMap]
  exact ⟨i, List.mem_range.mpr (by omega),
    List.mem_map_of_mem _ (List.mem_range.mpr (by omega))⟩

theorem le_matrix_max (sm : Nat → Nat → Int) (m n i j : Nat)
    (hi : i ≤ m) (hj : j ≤ n) : sm i j ≤ matrix_max sm m n :=
  foldl_max_mem_le _ _ _ (mem_matrix_entries sm m n i j hi hj)

theorem matrix_max_attained (sm : Nat → Nat → Int) (m n : Nat) :
    ∃ i j, i ≤ m ∧ j ≤ n ∧ sm i j = matrix_max sm m n := by
  unfold matrix_max
  rcases foldl_max_attained
      ((List.range (m + 1)).flatMap (fun i => (List.range (n + 1)).map (fun j => sm i j)))
      (sm 0 0) with h | h
  · exact ⟨0, 0, by omega, by omega, h.symm⟩
  · rw [List.mem_flatMap] at h
    obtain ⟨i, hi, hmem⟩ := h
    rw [List.mem_map] at hmem
    obtain ⟨j, hj, he⟩ := hmem
    rw [List.mem_range] at hi hj
    exact ⟨i, j, by omega, by omega, he⟩

theorem mem_argwhere_eq {sm : Nat → Nat → Int} {m n : Nat} {mx : Int} {p : Nat × Nat} :
    p ∈ argwhere_eq sm m n mx ↔ p.1 ≤ m ∧ p.2 ≤ n ∧ sm p.1 p.2 = mx := by
  unfold argwhere_eq
  rw [List.mem_flatMap]
  constructor
  · rintro ⟨i, hi, hmem⟩
    rw [List.mem_range] at hi
    rw [List.mem_filterMap] at hmem
    obtain ⟨j, hj, he⟩ := hmem
    rw [List.mem_range] at hj
    split_ifs at he with hc
    obtain rfl : (i, j) = p := Option.some.inj he
    exact ⟨by omega, by omega, hc⟩
  · rintro ⟨h1, h2, h3⟩
    refine ⟨p.1, List.mem_range.mpr (by omega), ?_⟩
    rw [List.mem_filterMap]
    refine ⟨p.2, List.mem_range.mpr (by omega), ?_⟩
    rw [if_pos h3]

theorem mem_initial_states_local (strategy : String) (sm : Nat → Nat → Int)
    (m n : Nat) (hns : strategy ≠ "global") (st : AlignState) :
    st ∈ initial_states strategy sm m n ↔
      st.posY ≤ m ∧ st.posX ≤ n ∧ sm st.posY st.posX = matrix_max sm m n ∧
        st.a1 = [] ∧ st.a2 = [] := by
  unfold initial_states
  rw [if_neg hns]
  rw [List.mem_map]
  constructor
  · rintro ⟨q, hq, he⟩
    rw [List.mem_reverse, mem_argwhere_eq] at hq
    rw [← he]
    exact ⟨hq.1, hq.2.1, hq.2.2, rfl, rfl⟩
  · rintro ⟨h1, h2, h3, h4, h5⟩
    refine ⟨(st.posY, st.posX), ?_, ?_⟩
    · rw [List.mem_reverse, mem_argwhere_eq]
      exact ⟨h1, h2, h3⟩
    · cases st
      simp only [] at h4 h5 ⊢
      rw [h4, h5]

/-! ### List helpers for the alignment-shape claims -/

theorem getD_drop : ∀ (s : List Char) (d c : Nat),
    (s.drop d).getD c '-' = s.getD (d + c) '-'
  | _, 0, _ => by simp
  | [], _ + 1, _ => by simp
  | a :: as, d + 1, c => by
    have h : d + 1 + c = (d + c) + 1 := by omega
    rw [List.drop_succ_cons, h, List.getD_cons_succ]
    exact getD_drop as d c

theorem getD_eq_get (l : List Char) (c : Nat) (h : c < l.length) :
    l.getD c '-' = l.get ⟨c, h⟩ := by
  simp [List.getD_eq_getElem?_getD, List.getElem?_eq_getElem h]

theorem getD_mem (l : List Char) (c : Nat) (h : c < l.length) : l.getD c '-' ∈ l := by
  rw [getD_eq_get l c h]
  exact List.get_mem l c h

theorem take_succ_getD (l : List Char) (c : Nat) (h : c < l.length) :
    l.take (c + 1) = l.take c ++ [l.getD c '-'] := by
  rw [List.take_succ]
  congr 1
  have he : l[c]? = some (l.get ⟨c, h⟩) := by simp [List.getElem?_eq_getElem h]
  rw [he, getD_eq_get l c h]
  rfl

theorem stripGaps_append (a b : List Char) :
    stripGaps (a ++ b) = stripGaps a ++ stripGaps b := by
  simp [stripGaps, List.filter_append]

theorem stripGaps_gap (a : List Char) : stripGaps (a ++ ['-']) = stripGaps a := by
  simp [stripGaps, List.filter_append]

theorem stripGaps_sym (a : List Char) (c : Char) (hc : c ≠ '-') :
    stripGaps (a ++ [c]) = stripGaps a ++ [c] := by
  simp [stripGaps, List.filter_append, hc]

/-- Appending the consumed symbol `s[-y]` extends the reconstructed
contiguous run by one: with `d + c + y = s.length`, the consumed symbol is
exactly the next one after the run `(s.drop d).take c`. -/
theorem stripGaps_consume (s acc : List Char) (d c y : Nat)
    (hgap : '-' ∉ s) (hsum : d + c + y = s.length) (hy : 1 ≤ y)
    (hacc : stripGaps acc = (s.drop d).take c) :
    stripGaps (acc ++ [negGet s y]) = (s.drop d).take (c + 1) := by
  have hidx : d + c < s.length := by omega
  have hng : negGet s y = s.getD (d + c) '-' := by
    unfold negGet
    rw [if_neg (by omega)]
    congr 1
    omega
  have hmem : s.getD (d + c) '-' ∈ s := getD_mem s _ hidx
  have hne : s.getD (d + c) '-' ≠ '-' := fun he => hgap (he ▸ hmem)
  rw [hng, stripGaps_sym acc _ hne, hacc,
    take_succ_getD (s.drop d) c (by rw [List.length_drop]; omega), getD_drop s d c]

/-- In global alignment, travel only finishes at the origin (0,0). -/
theorem global_terminal_origin (sub : Char → Char → Int) (gap : Int)
    (s1 s2 : List Char) (st : AlignState)
    (h : is_terminal (directional_matrix "global" sub gap s1 s2)
      (score_matrix "global" sub gap s1 s2) "global" st) :
    st.posY = 0 ∧ st.posX = 0 := by
  rcases h with h | h
  · exact dm_global_zero_flags sub gap s1 s2 _ _ h
  · exact absurd h.1 (by decide)

/-- The result of `_traceback` for a recognized strategy, spelled out. -/
theorem traceback_eq_ok (strategy : String) (sub : Char → Char → Int) (gap : Int)
    (s1 s2 : List Char) (n : Nat)
    (hstrat : strategy = "global" ∨ strategy = "local") :
    traceback strategy sub gap s1 s2 n =
      Except.ok
        (sortedDesc (traceback_loop (directional_matrix strategy sub gap s1 s2)
            (score_matrix strategy sub gap s1 s2) strategy s1 s2 n
            (stackMeasure (initial_states strategy (score_matrix strategy sub gap s1 s2)
              s1.length s2.length) + 1)
            (initial_states strategy (score_matrix strategy sub gap s1 s2)
              s1.length s2.length)
            []),
          traceback_max_score strategy (score_matrix strategy sub gap s1 s2)
            s1.length s2.length) := by
  unfold traceback
  rw [if_pos hstrat]

theorem negGet_eq_getD (s : List Char) (k : Nat) (hk : 1 ≤ k) :
    negGet s k = s.getD (s.length - k) '-' := by
  unfold negGet
  rw [if_neg (by omega)]

/-! ### Claim theorems -/

/-- C3: for every i in [0,m) and j in [0,n), the stored score of cell
(i+1, j+1) equals max(diagonal, up, left) — diagonal from cell (i,j) plus the
substitution score of seq1[i], seq2[j], up from (i, j+1) plus the gap
penalty, left from (i+1, j) plus the gap penalty — additionally clamped to a
minimum of 0 under the local strategy; and the cell's up/diagonal/left flags
are set exactly for the candidates whose value equals the stored score. -/
theorem C3_recurrence_and_flags (strategy : String) (sub : Char → Char → Int)
    (gap : Int) (s1 s2 : List Char) (i j : Nat)
    (hi : i < s1.length) (hj : j < s2.length) :
    score_matrix strategy sub gap s1 s2 (i + 1) (j + 1) =
      (if strategy = "local" then
        max (max (max (score_matrix strategy sub gap s1 s2 i j +
            sub (s1.getD i '-') (s2.getD j '-'))
          (score_matrix strategy sub gap s1 s2 i (j + 1) + gap))
          (score_matrix strategy sub gap s1 s2 (i + 1) j + gap)) 0
      else
        max (max (score_matrix strategy sub gap s1 s2 i j +
            sub (s1.getD i '-') (s2.getD j '-'))
          (score_matrix strategy sub gap s1 s2 i (j + 1) + gap))
          (score_matrix strategy sub gap s1 s2 (i + 1) j + gap)) ∧
    ((directional_matrix strategy sub gap s1 s2 (i + 1) (j + 1)).up = true ↔
      score_matrix strategy sub gap s1 s2 i (j + 1) + gap =
        score_matrix strategy sub gap s1 s2 (i + 1) (j + 1)) ∧
    ((directional_matrix strategy sub gap s1 s2 (i + 1) (j + 1)).diagonal = true ↔
      score_matrix strategy sub gap s1 s2 i j + sub (s1.getD i '-') (s2.getD j '-') =
        score_matrix strategy sub gap s1 s2 (i + 1) (j + 1)) ∧
    ((directional_matrix strategy sub gap s1 s2 (i + 1) (j + 1)).left = true ↔
      score_matrix strategy sub gap s1 s2 (i + 1) j + gap =
        score_matrix strategy sub gap s1 s2 (i + 1) (j + 1)) := by
  have hax : ∀ a b c : Int, max a (max b c) = max (max b a) c := by
    intro a b c
    rw [← max_assoc, max_comm a b]
  refine ⟨?_, ?_, ?_, ?_⟩
  · rw [score_matrix_inner]
    split_ifs with hloc <;> rw [hax]
  · rw [directional_matrix_inner]
    simp
  · rw [directional_matrix_inner]
    simp
  · rw [directional_matrix_inner]
    simp

theorem C3_witness :
    (0 < (['A'] : List Char).length) ∧
      ((directional_matrix "global" (fun _ _ => (1 : Int)) (-2) ['A'] ['A'] 1 1).diagonal =
          true ↔
        score_matrix "global" (fun _ _ => (1 : Int)) (-2) ['A'] ['A'] 0 0 +
            (fun _ _ => (1 : Int)) ((['A'] : List Char).getD 0 '-')
              ((['A'] : List Char).getD 0 '-') =
          score_matrix "global" (fun _ _ => (1 : Int)) (-2) ['A'] ['A'] 1 1) :=
  ⟨by decide,
    (C3_recurrence_and_flags "global" (fun _ _ => 1) (-2) ['A'] ['A'] 0 0
      (by decide) (by decide)).2.2.1⟩

/-- C4 (code bug): the claim says a symbol pair absent from the loaded
substitution table silently yields score 0; the nested defaultdict was built
with a one-parameter default factory, so the lookup instead raises a
TypeError.  Evaluated here on a table holding only the pair (A, A): the
lookup of the absent pair (A, C) errors and in particular is not `ok 0`,
while the present pair (A, A) is found. -/
theorem C4_missing_pair_raises :
    alignments_lookup (load_substitution_matrix ['A'] ['A'] (fun _ _ => 1)) 'A' 'C' =
        Except.error "TypeError: lambda missing 1 required positional argument" ∧
      alignments_lookup (load_substitution_matrix ['A'] ['A'] (fun _ _ => 1)) 'A' 'C' ≠
        Except.ok 0 ∧
      alignments_lookup (load_substitution_matrix ['A'] ['A'] (fun _ _ => 1)) 'A' 'A' =
        Except.ok 1 := by
  have h1 : alignments_lookup (load_substitution_matrix ['A'] ['A'] (fun _ _ => 1)) 'A' 'C' =
      Except.error "TypeError: lambda missing 1 required positional argument" := rfl
  refine ⟨h1, ?_, rfl⟩
  intro h
  rw [h1] at h
  exact Except.noConfusion h

/-- C5: for global strategy the returned optimal score is the bottom-right
cell of the score matrix and the search starts from the single state (m, n)
with empty partial strings; for local strategy it is the maximum entry
anywhere in the matrix and the search starts from exactly the cells achieving
it, with empty partial strings; any other strategy fails with a configuration
error and returns no alignments. -/
theorem C5_strategy_dispatch (strategy : String) (sub : Char → Char → Int)
    (gap : Int) (s1 s2 : List Char) (n : Nat) :
    (strategy = "global" →
      ∃ res, traceback strategy sub gap s1 s2 n = Except.ok res ∧
        res.2 = score_matrix strategy sub gap s1 s2 s1.length s2.length ∧
        initial_states strategy (score_matrix strategy sub gap s1 s2)
          s1.length s2.length = [⟨s1.length, s2.length, [], []⟩]) ∧
    (strategy = "local" →
      ∃ res, traceback strategy sub gap s1 s2 n = Except.ok res ∧
        res.2 = matrix_max (score_matrix strategy sub gap s1 s2) s1.length s2.length ∧
        (∀ i j, i ≤ s1.length → j ≤ s2.length →
          score_matrix strategy sub gap s1 s2 i j ≤ res.2) ∧
        (∃ i j, i ≤ s1.length ∧ j ≤ s2.length ∧
          score_matrix strategy sub gap s1 s2 i j = res.2) ∧
        (∀ i j, i ≤ s1.length → j ≤ s2.length →
          ((⟨i, j, [], []⟩ : AlignState) ∈ initial_states strategy
              (score_matrix strategy sub gap s1 s2) s1.length s2.length ↔
            score_matrix strategy sub gap s1 s2 i j = res.2)) ∧
        (∀ st ∈ initial_states strategy (score_matrix strategy sub gap s1 s2)
            s1.length s2.length,
          st.a1 = [] ∧ st.a2 = [] ∧ st.posY ≤ s1.length ∧ st.posX ≤ s2.length ∧
            score_matrix strategy sub gap s1 s2 st.posY st.posX = res.2)) ∧
    ((strategy = "global" → False) → (strategy = "local" → False) →
      traceback strategy sub gap s1 s2 n =
        Except.error "Strategy must be global or local.") := by
  refine ⟨?_, ?_, ?_⟩
  · intro hG
    subst hG
    refine ⟨_, traceback_eq_ok "global" sub gap s1 s2 n (Or.inl rfl), ?_, ?_⟩
    · simp [traceback_max_score]
    · unfold initial_states
      rw [if_pos rfl]
  · intro hL
    subst hL
    refine ⟨_, traceback_eq_ok "local" sub gap s1 s2 n (Or.inr rfl), ?_, ?_, ?_, ?_, ?_⟩
    · simp only [traceback_max_score]
      rw [if_neg (by decide)]
    · intro i j hi hj
      simp only [traceback_max_score]
      rw [if_neg (by decide)]
      exact le_matrix_max _ _ _ i j hi hj
    · simp only [traceback_max_score]
      rw [if_neg (by decide)]
      exact matrix_max_attained _ _ _
    · intro i j hi hj
      rw [mem_initial_states_local "local" _ _ _ (by decide)]
      simp only [traceback_max_score]
      rw [if_neg (by decide)]
      simp [hi, hj]
    · intro st hst
      rw [mem_initial_states_local "local" _ _ _ (by decide)] at hst
      simp only [traceback_max_score]
      rw [if_neg (by decide)]
      exact ⟨hst.2.2.2.1, hst.2.2.2.2, hst.1, hst.2.1, hst.2.2.1⟩
  · intro h1 h2
    unfold traceback
    rw [if_neg (fun h => h.elim h1 h2)]

theorem C5_witness :
    ("bogus" = "global" → False) ∧ ("bogus" = "local" → False) ∧
      traceback "bogus" (fun _ _ => (1 : Int)) (-2) ['A'] ['A'] 1 =
        Except.error "Strategy must be global or local." :=
  ⟨by decide, by decide,
    (C5_strategy_dispatch "bogus" (fun _ _ => 1) (-2) ['A'] ['A'] 1).2.2
      (by decide) (by decide)⟩

/-- C6 counterexample: with seq1 = seq2 = "A" and gap penalty -2, the global
row-0 cell (0,1) carries a fromLeft flag, not the single fromUp flag the
claim assigns to row 0; and under the local strategy the boundary cell (1,0)
holds -2 with a fromUp flag, not score 0 with no flags. -/
theorem C6_counterexample :
    directional_matrix "global" (fun _ _ => (1 : Int)) (-2) ['A'] ['A'] 0 1 ≠
        (⟨true, false, false⟩ : DirectionalCell) ∧
      score_matrix "local" (fun _ _ => (1 : Int)) (-2) ['A'] ['A'] 1 0 ≠ 0 ∧
      directional_matrix "local" (fun _ _ => (1 : Int)) (-2) ['A'] ['A'] 1 0 ≠
        (⟨false, false, false⟩ : DirectionalCell) := by
  refine ⟨by decide, by decide, by decide⟩

/-- C6 (amended): the boundary fill does not depend on the strategy.  Under
both strategies every cell (i,0) with i ≥ 1 holds i*gapPenalty with exactly a
single fromUp flag, every cell (0,j) with j ≥ 1 holds j*gapPenalty with
exactly a single fromLeft flag, and cell (0,0) holds 0 with no flags. -/
theorem C6_boundary_amended (strategy : String) (sub : Char → Char → Int)
    (gap : Int) (s1 s2 : List Char) :
    (∀ i, 1 ≤ i → i ≤ s1.length →
      score_matrix strategy sub gap s1 s2 i 0 = (i : Int) * gap ∧
      directional_matrix strategy sub gap s1 s2 i 0 = ⟨true, false, false⟩) ∧
    (∀ j, 1 ≤ j → j ≤ s2.length →
      score_matrix strategy sub gap s1 s2 0 j = (j : Int) * gap ∧
      directional_matrix strategy sub gap s1 s2 0 j = ⟨false, false, true⟩) ∧
    score_matrix strategy sub gap s1 s2 0 0 = 0 ∧
    directional_matrix strategy sub gap s1 s2 0 0 = ⟨false, false, false⟩ := by
  refine ⟨?_, ?_, by simp [score_matrix_zero], rfl⟩
  · intro i h1 h2
    match i, h1 with
    | i + 1, _ =>
      refine ⟨?_, rfl⟩
      rw [score_matrix_base]
      push_cast
      ring
  · intro j h1 h2
    match j, h1 with
    | j + 1, _ => exact ⟨by rw [score_matrix_zero], rfl⟩

theorem C6_witness :
    ((1 : Nat) ≤ 1) ∧
      score_matrix "local" (fun _ _ => (1 : Int)) (-2) ['A'] ['A'] 1 0 =
        ((1 : Nat) : Int) * (-2) ∧
      directional_matrix "local" (fun _ _ => (1 : Int)) (-2) ['A'] ['A'] 1 0 =
        (⟨true, false, false⟩ : DirectionalCell) :=
  ⟨le_refl 1,
    ((C6_boundary_amended "local" (fun _ _ => 1) (-2) ['A'] ['A']).1 1
      (le_refl 1) (le_refl 1)).1,
    ((C6_boundary_amended "local" (fun _ _ => 1) (-2) ['A'] ['A']).1 1
      (le_refl 1) (le_refl 1)).2⟩

/-- C9: the returned list is the completed deduplicated solution set sorted
in descending order by pairwise lexicographic comparison on (first string,
second string), holds at most n entries, and comes with the
strategy-dependent optimal score; n = 0 yields an empty list while the score
is still the strategy optimum. -/
theorem C9_sorted_dedup_bounded (strategy : String) (sub : Char → Char → Int)
    (gap : Int) (s1 s2 : List Char) (n : Nat)
    (hstrat : strategy = "global" ∨ strategy = "local") :
    ∃ res, traceback strategy sub gap s1 s2 n = Except.ok res ∧
      res.1.Pairwise pair_desc ∧
      res.1.Nodup ∧
      res.1.length ≤ n ∧
      res.2 = traceback_max_score strategy (score_matrix strategy sub gap s1 s2)
        s1.length s2.length ∧
      (n = 0 → res.1 = []) := by
  refine ⟨_, traceback_eq_ok strategy sub gap s1 s2 n hstrat, ?_, ?_, ?_, rfl, ?_⟩
  · exact sortedDesc_sorted _
  · exact ((sortedDesc_perm _).nodup_iff).mpr
      (traceback_loop_nodup _ _ _ _ _ _ _ _ _ List.nodup_nil)
  · rw [(sortedDesc_perm _).length_eq]
    exact traceback_loop_length_le _ _ _ _ _ _ _ _ _ (by simp)
  · intro hn
    subst hn
    rw [traceback_loop_zero]
    rfl

theorem C9_witness :
    ("global" = "global" ∨ "global" = "local") ∧
      ∃ res, traceback "global" (fun _ _ => (1 : Int)) (-2) ['A'] ['A'] 1 =
          Except.ok res ∧
        res.1.Pairwise pair_desc ∧
        res.1.Nodup ∧
        res.1.length ≤ 1 ∧
        res.2 = traceback_max_score "global"
          (score_matrix "global" (fun _ _ => (1 : Int)) (-2) ['A'] ['A'])
          (['A'] : List Char).length (['A'] : List Char).length ∧
        (1 = 0 → res.1 = []) :=
  ⟨Or.inl rfl,
    C9_sorted_dedup_bounded "global" (fun _ _ => 1) (-2) ['A'] ['A'] 1 (Or.inl rfl)⟩

/-- C10: traceback safety and termination: every push strictly decreases
row + col and never increases either coordinate; up/diagonal flags only occur
at rows ≥ 1 and left/diagonal flags at columns ≥ 1, so a symbol of seq1
(resp. seq2) is only consumed at a state with positive row (resp. column);
the initial states lie inside the (m+1) × (n+1) matrix; and the search loop
terminates: every fuel beyond the initial worklist measure gives the same
result. -/
theorem C10_safety_and_termination (strategy : String) (sub : Char → Char → Int)
    (gap : Int) (s1 s2 : List Char) (n : Nat)
    (hstrat : strategy = "global" ∨ strategy = "local") :
    (∀ st st', st' ∈ push_states (directional_matrix strategy sub gap s1 s2) s1 s2 st →
      st'.posY + st'.posX < st.posY + st.posX ∧
      st'.posY ≤ st.posY ∧ st'.posX ≤ st.posX) ∧
    (∀ y x, ((directional_matrix strategy sub gap s1 s2 y x).up = true ∨
        (directional_matrix strategy sub gap s1 s2 y x).diagonal = true) → 1 ≤ y) ∧
    (∀ y x, ((directional_matrix strategy sub gap s1 s2 y x).left = true ∨
        (directional_matrix strategy sub gap s1 s2 y x).diagonal = true) → 1 ≤ x) ∧
    (∀ st ∈ initial_states strategy (score_matrix strategy sub gap s1 s2)
        s1.length s2.length, st.posY ≤ s1.length ∧ st.posX ≤ s2.length) ∧
    (∀ fuel, stackMeasure (initial_states strategy (score_matrix strategy sub gap s1 s2)
          s1.length s2.length) < fuel →
      traceback_loop (directional_matrix strategy sub gap s1 s2)
          (score_matrix strategy sub gap s1 s2) strategy s1 s2 n fuel
          (initial_states strategy (score_matrix strategy sub gap s1 s2)
            s1.length s2.length) [] =
        traceback_loop (directional_matrix strategy sub gap s1 s2)
          (score_matrix strategy sub gap s1 s2) strategy s1 s2 n
          (stackMeasure (initial_states strategy (score_matrix strategy sub gap s1 s2)
            s1.length s2.length) + 1)
          (initial_states strategy (score_matrix strategy sub gap s1 s2)
            s1.length s2.length) []) := by
  refine ⟨?_, ?_, ?_, ?_, ?_⟩
  · intro st st' h
    refine ⟨push_states_weight strategy sub gap s1 s2 st st' h, ?_⟩
    rcases mem_push_states.mp h with ⟨hf, rfl⟩ | ⟨hf, rfl⟩ | ⟨hf, rfl⟩ <;>
      exact ⟨by dsimp only; omega, by dsimp only; omega⟩
  · intro y x h
    rcases h with h | h
    · exact dm_up_pos strategy sub gap s1 s2 y x h
    · exact (dm_diag_pos strategy sub gap s1 s2 y x h).1
  · intro y x h
    rcases h with h | h
    · exact dm_left_pos strategy sub gap s1 s2 y x h
    · exact (dm_diag_pos strategy sub gap s1 s2 y x h).2
  · intro st hst
    rcases hstrat with hG | hL
    · subst hG
      unfold initial_states at hst
      rw [if_pos rfl] at hst
      have he : st = ⟨s1.length, s2.length, [], []⟩ := by simpa using hst
      subst he
      exact ⟨le_refl _, le_refl _⟩
    · subst hL
      rw [mem_initial_states_local "local" _ _ _ (by decide)] at hst
      exact ⟨hst.1, hst.2.1⟩
  · intro fuel hfuel
    exact traceback_loop_fuel_eq strategy sub gap s1 s2 n
      (stackMeasure (initial_states strategy (score_matrix strategy sub gap s1 s2)
        s1.length s2.length)) fuel _ _ [] (le_refl _) hfuel (by omega)

theorem C10_witness :
    ("global" = "global" ∨ "global" = "local") ∧
      (∀ fuel, stackMeasure (initial_states "global"
            (score_matrix "global" (fun _ _ => (1 : Int)) (-2) ['A'] ['A'])
            (['A'] : List Char).length (['A'] : List Char).length) < fuel →
        traceback_loop (directional_matrix "global" (fun _ _ => (1 : Int)) (-2) ['A'] ['A'])
            (score_matrix "global" (fun _ _ => (1 : Int)) (-2) ['A'] ['A'])
            "global" ['A'] ['A'] 1 fuel
            (initial_states "global"
              (score_matrix "global" (fun _ _ => (1 : Int)) (-2) ['A'] ['A'])
              (['A'] : List Char).length (['A'] : List Char).length) [] =
          traceback_loop (directional_matrix "global" (fun _ _ => (1 : Int)) (-2) ['A'] ['A'])
            (score_matrix "global" (fun _ _ => (1 : Int)) (-2) ['A'] ['A'])
            "global" ['A'] ['A'] 1
            (stackMeasure (initial_states "global"
              (score_matrix "global" (fun _ _ => (1 : Int)) (-2) ['A'] ['A'])
              (['A'] : List Char).length (['A'] : List Char).length) + 1)
            (initial_states "global"
              (score_matrix "global" (fun _ _ => (1 : Int)) (-2) ['A'] ['A'])
              (['A'] : List Char).length (['A'] : List Char).length) []) :=
  ⟨Or.inl rfl,
    (C10_safety_and_termination "global" (fun _ _ => 1) (-2) ['A'] ['A'] 1
      (Or.inl rfl)).2.2.2.2⟩

/-- C7: every returned alignment pair has equal length; removing every gap
symbol from the first string yields a contiguous run of consecutive symbols
of seq1, and from the second a contiguous run of seq2; under the global
strategy those runs are the whole of seq1 and seq2.  (The gap symbol is
reserved: the sequences themselves do not contain it.) -/
theorem C7_alignment_shape (strategy : String) (sub : Char → Char → Int) (gap : Int)
    (s1 s2 : List Char) (n : Nat) (res : List (List Char × List Char) × Int)
    (hstrat : strategy = "global" ∨ strategy = "local")
    (hg1 : '-' ∉ s1) (hg2 : '-' ∉ s2)
    (hok : traceback strategy sub gap s1 s2 n = Except.ok res)
    (p : List Char × List Char) (hp : p ∈ res.1) :
    p.1.length = p.2.length ∧
      (∃ d c, d + c ≤ s1.length ∧ stripGaps p.1 = (s1.drop d).take c) ∧
      (∃ e c, e + c ≤ s2.length ∧ stripGaps p.2 = (s2.drop e).take c) ∧
      (strategy = "global" → stripGaps p.1 = s1 ∧ stripGaps p.2 = s2) := by
  rw [traceback_eq_ok strategy sub gap s1 s2 n hstrat] at hok
  injection hok with hok
  subst hok
  have hp2 : p ∈ sortedDesc (traceback_loop (directional_matrix strategy sub gap s1 s2)
      (score_matrix strategy sub gap s1 s2) strategy s1 s2 n
      (stackMeasure (initial_states strategy (score_matrix strategy sub gap s1 s2)
        s1.length s2.length) + 1)
      (initial_states strategy (score_matrix strategy sub gap s1 s2)
        s1.length s2.length) []) := hp
  rw [sortedDesc_mem] at hp2
  refine traceback_loop_invariant (directional_matrix strategy sub gap s1 s2)
      (score_matrix strategy sub gap s1 s2) strategy s1 s2 n
      (fun st => st.a1.length = st.a2.length ∧
        (∃ d c, d + c + st.posY = s1.length ∧ stripGaps st.a1 = (s1.drop d).take c ∧
          (strategy = "global" → d = 0)) ∧
        (∃ e c, e + c + st.posX = s2.length ∧ stripGaps st.a2 = (s2.drop e).take c ∧
          (strategy = "global" → e = 0)))
      (fun q => q.1.length = q.2.length ∧
        (∃ d c, d + c ≤ s1.length ∧ stripGaps q.1 = (s1.drop d).take c) ∧
        (∃ e c, e + c ≤ s2.length ∧ stripGaps q.2 = (s2.drop e).take c) ∧
        (strategy = "global" → stripGaps q.1 = s1 ∧ stripGaps q.2 = s2))
      ?_ ?_ _ _ [] ?_ (by simp) p hp2
  · -- preservation under pushes
    intro st hP hterm st' hst'
    obtain ⟨hlen, ⟨d, c, hdc, hstrip1, hdg⟩, ⟨e, c2, hec, hstrip2, heg⟩⟩ := hP
    rcases mem_push_states.mp hst' with ⟨hf, rfl⟩ | ⟨hf, rfl⟩ | ⟨hf, rfl⟩
    · obtain ⟨hy, hx⟩ := dm_diag_pos strategy sub gap s1 s2 _ _ hf
      refine ⟨by simp [hlen], ⟨d, c + 1, by dsimp only; omega, ?_, hdg⟩,
        ⟨e, c2 + 1, by dsimp only; omega, ?_, heg⟩⟩
      · exact stripGaps_consume s1 st.a1 d c st.posY hg1 hdc hy hstrip1
      · exact stripGaps_consume s2 st.a2 e c2 st.posX hg2 hec hx hstrip2
    · have hy := dm_up_pos strategy sub gap s1 s2 _ _ hf
      refine ⟨by simp [hlen], ⟨d, c + 1, by dsimp only; omega, ?_, hdg⟩,
        ⟨e, c2, by dsimp only; omega, ?_, heg⟩⟩
      · exact stripGaps_consume s1 st.a1 d c st.posY hg1 hdc hy hstrip1
      · show stripGaps (st.a2 ++ ['-']) = (s2.drop e).take c2
        rw [stripGaps_gap]
        exact hstrip2
    · have hx := dm_left_pos strategy sub gap s1 s2 _ _ hf
      refine ⟨by simp [hlen], ⟨d, c, by dsimp only; omega, ?_, hdg⟩,
        ⟨e, c2 + 1, by dsimp only; omega, ?_, heg⟩⟩
      · show stripGaps (st.a1 ++ ['-']) = (s1.drop d).take c
        rw [stripGaps_gap]
        exact hstrip1
      · exact stripGaps_consume s2 st.a2 e c2 st.posX hg2 hec hx hstrip2
  · -- terminal states yield the claimed shape
    intro st hP hterm
    obtain ⟨hlen, ⟨d, c, hdc, hstrip1, hdg⟩, ⟨e, c2, hec, hstrip2, heg⟩⟩ := hP
    refine ⟨hlen, ⟨d, c, by omega, hstrip1⟩, ⟨e, c2, by omega, hstrip2⟩, ?_⟩
    intro hG
    subst hG
    obtain ⟨hy0, hx0⟩ := global_terminal_origin sub gap s1 s2 st hterm
    have hd0 := hdg rfl
    have he0 := heg rfl
    subst hd0
    subst he0
    constructor
    · rw [hstrip1]
      have hc : c = s1.length := by omega
      rw [hc, List.drop_zero, List.take_length]
    · rw [hstrip2]
      have hc : c2 = s2.length := by omega
      rw [hc, List.drop_zero, List.take_length]
  · -- initial states satisfy the invariant
    intro st hst
    rcases hstrat with hG | hL
    · subst hG
      unfold initial_states at hst
      rw [if_pos rfl] at hst
      have he : st = ⟨s1.length, s2.length, [], []⟩ := by simpa using hst
      subst he
      exact ⟨rfl, ⟨0, 0, by simp, by simp [stripGaps], fun _ => rfl⟩,
        ⟨0, 0, by simp, by simp [stripGaps], fun _ => rfl⟩⟩
    · subst hL
      rw [mem_initial_states_local "local" _ _ _ (by decide)] at hst
      obtain ⟨h1, h2, _, h4, h5⟩ := hst
      refine ⟨by rw [h4, h5],
        ⟨s1.length - st.posY, 0, by omega, by rw [h4]; simp [stripGaps],
          fun hc => absurd hc (by decide)⟩,
        ⟨s2.length - st.posX, 0, by omega, by rw [h5]; simp [stripGaps],
          fun hc => absurd hc (by decide)⟩⟩

theorem C7_witness :
    ("global" = "global" ∨ "global" = "local") ∧
      ('-' ∉ (['A'] : List Char)) ∧
      traceback "global" (fun _ _ => (1 : Int)) (-2) ['A'] ['A'] 1 =
        Except.ok ([(['A'], ['A'])], 1) ∧
      ((['A'], ['A']) : List Char × List Char) ∈ [((['A'], ['A']) : List Char × List Char)] ∧
      ((['A'] : List Char).length = (['A'] : List Char).length ∧
        (∃ d c, d + c ≤ (['A'] : List Char).length ∧
          stripGaps ['A'] = ((['A'] : List Char).drop d).take c) ∧
        (∃ e c, e + c ≤ (['A'] : List Char).length ∧
          stripGaps ['A'] = ((['A'] : List Char).drop e).take c) ∧
        ("global" = "global" → stripGaps ['A'] = ['A'] ∧ stripGaps ['A'] = ['A'])) :=
  ⟨Or.inl rfl, by decide, by rfl, by decide,
    C7_alignment_shape "global" (fun _ _ => 1) (-2) ['A'] ['A'] 1 ([(['A'], ['A'])], 1)
      (Or.inl rfl) (by decide) (by decide) (by rfl) (['A'], ['A']) (by decide)⟩

/-- C1 (code bug): the claim says every returned pair achieves the returned
optimal score.  With seq1 = "AB", seq2 = "A", score(A,A) = 1,
score(B,A) = -1, gap penalty -2, global, n = 1, the code returns the single
pair ("AB", "-A") with optimalScore -1, but that pair's column-by-column
score is gap + score(B,A) = -3: the negative-index traceback pairs the wrong
symbols.  (The optimal alignment is ("AB", "A-") with score -1.) -/
theorem C1_returned_pair_misses_score :
    traceback "global" (fun a b => if a = b then 1 else -1) (-2) ['A', 'B'] ['A'] 1 =
        Except.ok ([(['A', 'B'], ['-', 'A'])], -1) ∧
      alignment_pair_score (fun a b => if a = b then 1 else -1) (-2)
        ['A', 'B'] ['-', 'A'] = -3 ∧
      ((-3 : Int) = -1 → False) ∧
      alignment_pair_score (fun a b => if a = b then 1 else -1) (-2)
        ['A', 'B'] ['A', '-'] = -1 :=
  ⟨by rfl, by decide, by decide, by decide⟩

/-- C2 counterexample: the claim says each set flag pushes the branch with
0-based indices seq1[row-1], seq2[col-1].  At seq1 = "AB", seq2 = "A"
(global, gap -2) the reachable state (2, 1) with empty partial strings has
only the up flag; the code pushes seq1[-2] = 'A' while the claim demands
seq1[2-1] = 'B', so the pushed branch lists differ. -/
theorem C2_counterexample :
    push_states (directional_matrix "global" (fun a b => if a = b then 1 else -1) (-2)
        ['A', 'B'] ['A']) ['A', 'B'] ['A'] ⟨2, 1, [], []⟩ ≠
      push_states_claimed (directional_matrix "global" (fun a b => if a = b then 1 else -1)
        (-2) ['A', 'B'] ['A']) ['A', 'B'] ['A'] ⟨2, 1, [], []⟩ := by
  decide

/-- C2 (amended): each set flag pushes exactly one branch, but the appended
symbols are taken with Python negative indices relative to the sequence ends:
the left flag pushes (row, col-1) with (p1 + gap, p2 + seq2[len2 - col]); the
up flag pushes (row-1, col) with (p1 + seq1[len1 - row], p2 + gap); the
diagonal flag pushes (row-1, col-1) with (p1 + seq1[len1 - row],
p2 + seq2[len2 - col]); the branches enter the worklist so that diagonal is
popped first, then up, then left. -/
theorem C2_amended_push_rule (strategy : String) (sub : Char → Char → Int)
    (gap : Int) (s1 s2 : List Char) (st : AlignState) :
    push_states (directional_matrix strategy sub gap s1 s2) s1 s2 st =
      (if (directional_matrix strategy sub gap s1 s2 st.posY st.posX).diagonal then
          [⟨st.posY - 1, st.posX - 1, st.a1 ++ [s1.getD (s1.length - st.posY) '-'],
            st.a2 ++ [s2.getD (s2.length - st.posX) '-']⟩]
        else []) ++
      (if (directional_matrix strategy sub gap s1 s2 st.posY st.posX).up then
          [⟨st.posY - 1, st.posX, st.a1 ++ [s1.getD (s1.length - st.posY) '-'],
            st.a2 ++ ['-']⟩]
        else []) ++
      (if (directional_matrix strategy sub gap s1 s2 st.posY st.posX).left then
          [⟨st.posY, st.posX - 1, st.a1 ++ ['-'],
            st.a2 ++ [s2.getD (s2.length - st.posX) '-']⟩]
        else []) := by
  have e1 : (if (directional_matrix strategy sub gap s1 s2 st.posY st.posX).diagonal = true
        then [(⟨st.posY - 1, st.posX - 1, st.a1 ++ [negGet s1 st.posY],
          st.a2 ++ [negGet s2 st.posX]⟩ : AlignState)] else []) =
      (if (directional_matrix strategy sub gap s1 s2 st.posY st.posX).diagonal = true
        then [(⟨st.posY - 1, st.posX - 1, st.a1 ++ [s1.getD (s1.length - st.posY) '-'],
          st.a2 ++ [s2.getD (s2.length - st.posX) '-']⟩ : AlignState)] else []) := by
    split_ifs with h
    · rw [negGet_eq_getD s1 st.posY (dm_diag_pos strategy sub gap s1 s2 _ _ h).1,
        negGet_eq_getD s2 st.posX (dm_diag_pos strategy sub gap s1 s2 _ _ h).2]
    · rfl
  have e2 : (if (directional_matrix strategy sub gap s1 s2 st.posY st.posX).up = true
        then [(⟨st.posY - 1, st.posX, st.a1 ++ [negGet s1 st.posY],
          st.a2 ++ ['-']⟩ : AlignState)] else []) =
      (if (directional_matrix strategy sub gap s1 s2 st.posY st.posX).up = true
        then [(⟨st.posY - 1, st.posX, st.a1 ++ [s1.getD (s1.length - st.posY) '-'],
          st.a2 ++ ['-']⟩ : AlignState)] else []) := by
    split_ifs with h
    · rw [negGet_eq_getD s1 st.posY (dm_up_pos strategy sub gap s1 s2 _ _ h)]
    · rfl
  have e3 : (if (directional_matrix strategy sub gap s1 s2 st.posY st.posX).left = true
        then [(⟨st.posY, st.posX - 1, st.a1 ++ ['-'],
          st.a2 ++ [negGet s2 st.posX]⟩ : AlignState)] else []) =
      (if (directional_matrix strategy sub gap s1 s2 st.posY st.posX).left = true
        then [(⟨st.posY, st.posX - 1, st.a1 ++ ['-'],
          st.a2 ++ [s2.getD (s2.length - st.posX) '-']⟩ : AlignState)] else []) := by
    split_ifs with h
    · rw [negGet_eq_getD s2 st.posX (dm_left_pos strategy sub gap s1 s2 _ _ h)]
    · rfl
  simp only [push_states]
  rw [e1, e2, e3]

/-! ### Degenerate inputs: one empty sequence -/

theorem matrix_max_eq_zero (sm : Nat → Nat → Int) (m n : Nat) (h0 : sm 0 0 = 0)
    (hle : ∀ i j, i ≤ m → j ≤ n → sm i j ≤ 0) : matrix_max sm m n = 0 := by
  unfold matrix_max
  rw [h0]
  apply foldl_max_of_le
  intro x hx
  rw [List.mem_flatMap] at hx
  obtain ⟨i, hi, hmem⟩ := hx
  rw [List.mem_map] at hmem
  obtain ⟨j, hj, he⟩ := hmem
  rw [List.mem_range] at hi hj
  rw [← he]
  exact hle i j (by omega) (by omega)

theorem argwhere_eq_origin (sm : Nat → Nat → Int) (m n : Nat) (h0 : sm 0 0 = 0)
    (huniq : ∀ i j, i ≤ m → j ≤ n → sm i j = 0 → i = 0 ∧ j = 0) :
    argwhere_eq sm m n 0 = [(0, 0)] := by
  unfold argwhere_eq
  rw [List.range_succ_eq_map m, List.flatMap_cons]
  have htail : (List.map Nat.succ (List.range m)).flatMap
      (fun i => (List.range (n + 1)).filterMap
        (fun j => if sm i j = 0 then some (i, j) else none)) = [] := by
    apply List.flatMap_eq_nil_iff.mpr
    intro a ha
    rw [List.mem_map] at ha
    obtain ⟨i, hi, he⟩ := ha
    rw [List.mem_range] at hi
    apply List.filterMap_eq_nil_iff.mpr
    intro j hj
    rw [List.mem_range] at hj
    rw [if_neg]
    intro hc
    have := huniq a j (by omega) (by omega) hc
    omega
  rw [htail, List.append_nil]
  have htail2 : (List.map Nat.succ (List.range n)).filterMap
      (fun j => if sm 0 j = 0 then some ((0 : Nat), j) else none) = [] := by
    apply List.filterMap_eq_nil_iff.mpr
    intro j hj
    rw [List.mem_map] at hj
    obtain ⟨j0, hj0, he⟩ := hj
    rw [List.mem_range] at hj0
    rw [if_neg]
    intro hc
    have := huniq 0 j (by omega) (by omega) hc
    omega
  rw [List.range_succ_eq_map n]
  simp [List.filterMap_cons, h0, htail2]

/-- When the initial worklist is the single origin state and the origin
scores 0, the local search completes immediately with the empty pair. -/
theorem traceback_local_single_empty (sub : Char → Char → Int) (gap : Int)
    (s1 s2 : List Char) (n : Nat) (hn : 1 ≤ n)
    (hinit : initial_states "local" (score_matrix "local" sub gap s1 s2)
      s1.length s2.length = [⟨0, 0, [], []⟩])
    (h0 : score_matrix "local" sub gap s1 s2 0 0 = 0) :
    ∀ res, traceback "local" sub gap s1 s2 n = Except.ok res →
      res.1 = [([], [])] := by
  intro res hok
  rw [traceback_eq_ok "local" sub gap s1 s2 n (Or.inr rfl), hinit] at hok
  have hterm : is_terminal (directional_matrix "local" sub gap s1 s2)
      (score_matrix "local" sub gap s1 s2) "local" ⟨0, 0, [], []⟩ := Or.inr ⟨rfl, h0⟩
  have hloop : traceback_loop (directional_matrix "local" sub gap s1 s2)
      (score_matrix "local" sub gap s1 s2) "local" s1 s2 n
      (stackMeasure [(⟨0, 0, [], []⟩ : AlignState)] + 1)
      [(⟨0, 0, [], []⟩ : AlignState)] [] = [([], [])] := by
    show traceback_loop (directional_matrix "local" sub gap s1 s2)
      (score_matrix "local" sub gap s1 s2) "local" s1 s2 n
      2 [(⟨0, 0, [], []⟩ : AlignState)] [] = [([], [])]
    unfold traceback_loop
    rw [if_neg (by simp only [List.length_nil]; omega), if_pos hterm]
    unfold traceback_loop
    rfl
  rw [hloop] at hok
  injection hok with hok
  subst hok
  rfl

/-- Global traceback with an empty seq1 pairs the whole of seq2 against
gap symbols. -/
theorem traceback_global_empty_s1 (sub : Char → Char → Int) (gap : Int)
    (s2 : List Char) (n : Nat) :
    ∀ res, traceback "global" sub gap [] s2 n = Except.ok res →
      ∀ p ∈ res.1, p.1 = List.replicate s2.length '-' ∧ p.2 = s2 := by
  intro res hok p hp
  rw [traceback_eq_ok "global" sub gap [] s2 n (Or.inl rfl)] at hok
  injection hok with hok
  subst hok
  have hp2 : p ∈ sortedDesc (traceback_loop (directional_matrix "global" sub gap [] s2)
      (score_matrix "global" sub gap [] s2) "global" [] s2 n
      (stackMeasure (initial_states "global" (score_matrix "global" sub gap [] s2)
        ([] : List Char).length s2.length) + 1)
      (initial_states "global" (score_matrix "global" sub gap [] s2)
        ([] : List Char).length s2.length) []) := hp
  rw [sortedDesc_mem] at hp2
  refine traceback_loop_invariant (directional_matrix "global" sub gap [] s2)
      (score_matrix "global" sub gap [] s2) "global" [] s2 n
      (fun st => st.posY = 0 ∧ st.posX ≤ s2.length ∧
        st.a1 = List.replicate (s2.length - st.posX) '-' ∧
        st.a2 = s2.take (s2.length - st.posX))
      (fun q => q.1 = List.replicate s2.length '-' ∧ q.2 = s2)
      ?_ ?_ _ _ [] ?_ (by simp) p hp2
  · intro st hP hterm st' hst'
    obtain ⟨hy, hx, ha1, ha2⟩ := hP
    rcases mem_push_states.mp hst' with ⟨hf, rfl⟩ | ⟨hf, rfl⟩ | ⟨hf, rfl⟩
    · have := (dm_diag_pos "global" sub gap [] s2 _ _ hf).1
      omega
    · have := dm_up_pos "global" sub gap [] s2 _ _ hf
      omega
    · have hx1 := dm_left_pos "global" sub gap [] s2 _ _ hf
      refine ⟨hy, by dsimp only; omega, ?_, ?_⟩
      · show st.a1 ++ ['-'] = List.replicate (s2.length - (st.posX - 1)) '-'
        have hi : s2.length - (st.posX - 1) = (s2.length - st.posX) + 1 := by omega
        rw [hi, List.replicate_succ', ha1]
      · show st.a2 ++ [negGet s2 st.posX] = s2.take (s2.length - (st.posX - 1))
        have hi : s2.length - (st.posX - 1) = (s2.length - st.posX) + 1 := by omega
        rw [hi, take_succ_getD s2 (s2.length - st.posX) (by omega),
          negGet_eq_getD s2 st.posX hx1, ha2]
  · intro st hP hterm
    obtain ⟨hy, hx, ha1, ha2⟩ := hP
    obtain ⟨hy0, hx0⟩ := global_terminal_origin sub gap [] s2 st hterm
    rw [hx0] at ha1 ha2
    refine ⟨?_, ?_⟩
    · rw [ha1, Nat.sub_zero]
    · rw [ha2, Nat.sub_zero, List.take_length]
  · intro st hst
    unfold initial_states at hst
    rw [if_pos rfl] at hst
    have he : st = ⟨([] : List Char).length, s2.length, [], []⟩ := by simpa using hst
    subst he
    refine ⟨rfl, le_refl _, ?_, ?_⟩
    · simp
    · simp

/-- Global traceback with an empty seq2 pairs the whole of seq1 against
gap symbols. -/
theorem traceback_global_empty_s2 (sub : Char → Char → Int) (gap : Int)
    (s1 : List Char) (n : Nat) :
    ∀ res, traceback "global" sub gap s1 [] n = Except.ok res →
      ∀ p ∈ res.1, p.2 = List.replicate s1.length '-' ∧ p.1 = s1 := by
  intro res hok p hp
  rw [traceback_eq_ok "global" sub gap s1 [] n (Or.inl rfl)] at hok
  injection hok with hok
  subst hok
  have hp2 : p ∈ sortedDesc (traceback_loop (directional_matrix "global" sub gap s1 [])
      (score_matrix "global" sub gap s1 []) "global" s1 [] n
      (stackMeasure (initial_states "global" (score_matrix "global" sub gap s1 [])
        s1.length ([] : List Char).length) + 1)
      (initial_states "global" (score_matrix "global" sub gap s1 [])
        s1.length ([] : List Char).length) []) := hp
  rw [sortedDesc_mem] at hp2
  refine traceback_loop_invariant (directional_matrix "global" sub gap s1 [])
      (score_matrix "global" sub gap s1 []) "global" s1 [] n
      (fun st => st.posX = 0 ∧ st.posY ≤ s1.length ∧
        st.a2 = List.replicate (s1.length - st.posY) '-' ∧
        st.a1 = s1.take (s1.length - st.posY))
      (fun q => q.2 = List.replicate s1.length '-' ∧ q.1 = s1)
      ?_ ?_ _ _ [] ?_ (by simp) p hp2
  · intro st hP hterm st' hst'
    obtain ⟨hx, hy, ha2, ha1⟩ := hP
    rcases mem_push_states.mp hst' with ⟨hf, rfl⟩ | ⟨hf, rfl⟩ | ⟨hf, rfl⟩
    · have := (dm_diag_pos "global" sub gap s1 [] _ _ hf).2
      omega
    · have hy1 := dm_up_pos "global" sub gap s1 [] _ _ hf
      refine ⟨hx, by dsimp only; omega, ?_, ?_⟩
      · show st.a2 ++ ['-'] = List.replicate (s1.length - (st.posY - 1)) '-'
        have hi : s1.length - (st.posY - 1) = (s1.length - st.posY) + 1 := by omega
        rw [hi, List.replicate_succ', ha2]
      · show st.a1 ++ [negGet s1 st.posY] = s1.take (s1.length - (st.posY - 1))
        have hi : s1.length - (st.posY - 1) = (s1.length - st.posY) + 1 := by omega
        rw [hi, take_succ_getD s1 (s1.length - st.posY) (by omega),
          negGet_eq_getD s1 st.posY hy1, ha1]
    · have := dm_left_pos "global" sub gap s1 [] _ _ hf
      omega
  · intro st hP hterm
    obtain ⟨hx, hy, ha2, ha1⟩ := hP
    obtain ⟨hy0, hx0⟩ := global_terminal_origin sub gap s1 [] st hterm
    rw [hy0] at ha1 ha2
    refine ⟨?_, ?_⟩
    · rw [ha2, Nat.sub_zero]
    · rw [ha1, Nat.sub_zero, List.take_length]
  · intro st hst
    unfold initial_states at hst
    rw [if_pos rfl] at hst
    have he : st = ⟨s1.length, ([] : List Char).length, [], []⟩ := by simpa using hst
    subst he
    refine ⟨rfl, le_refl _, ?_, ?_⟩
    · simp
    · simp

/-- C8 (amended): with a zero-length seq1 or seq2 and n ≥ 1: under the global
strategy every returned pair aligns the non-empty sequence entirely against
gap symbols; under the local strategy with a negative gap penalty the
enumeration returns exactly one pair — the pair of two empty strings — and
not the empty result the claim asserts. -/
theorem C8_empty_sequence (strategy : String) (sub : Char → Char → Int) (gap : Int)
    (s1 s2 : List Char) (n : Nat) (hn : 1 ≤ n) (hempty : s1 = [] ∨ s2 = []) :
    (strategy = "global" →
      ∀ res, traceback strategy sub gap s1 s2 n = Except.ok res →
        ∀ p ∈ res.1,
          (s1 = [] → p.1 = List.replicate s2.length '-' ∧ p.2 = s2) ∧
          (s2 = [] → p.2 = List.replicate s1.length '-' ∧ p.1 = s1)) ∧
    (strategy = "local" → gap < 0 →
      ∀ res, traceback strategy sub gap s1 s2 n = Except.ok res →
        res.1 = [([], [])]) := by
  constructor
  · intro hG res hok p hp
    subst hG
    rcases hempty with h1 | h2
    · subst h1
      have hres := traceback_global_empty_s1 sub gap s2 n res hok p hp
      refine ⟨fun _ => hres, ?_⟩
      intro h2
      subst h2
      rw [hres.1, hres.2]
      simp
    · subst h2
      have hres := traceback_global_empty_s2 sub gap s1 n res hok p hp
      refine ⟨?_, fun _ => hres⟩
      intro h1
      subst h1
      rw [hres.1, hres.2]
      simp
  · intro hL hgap res hok
    subst hL
    have h0 : score_matrix "local" sub gap s1 s2 0 0 = 0 := by
      rw [score_matrix_zero]
      simp
    rcases hempty with h1 | h2
    · subst h1
      refine traceback_local_single_empty sub gap [] s2 n hn ?_ h0 res hok
      unfold initial_states
      rw [if_neg (by decide)]
      have hle : ∀ i j, i ≤ ([] : List Char).length → j ≤ s2.length →
          score_matrix "local" sub gap [] s2 i j ≤ 0 := by
        intro i j hi hj
        have hi0 : i = 0 := by simpa using hi
        subst hi0
        rw [score_matrix_zero]
        exact mul_nonpos_iff.mpr (Or.inl ⟨Int.natCast_nonneg j, le_of_lt hgap⟩)
      have huniq : ∀ i j, i ≤ ([] : List Char).length → j ≤ s2.length →
          score_matrix "local" sub gap [] s2 i j = 0 → i = 0 ∧ j = 0 := by
        intro i j hi hj hz
        have hi0 : i = 0 := by simpa using hi
        subst hi0
        rw [score_matrix_zero] at hz
        rcases mul_eq_zero.mp hz with h | h
        · exact ⟨rfl, by exact_mod_cast h⟩
        · omega
      rw [matrix_max_eq_zero _ _ _ h0 hle,
        argwhere_eq_origin _ _ _ h0 huniq]
      rfl
    · subst h2
      refine traceback_local_single_empty sub gap s1 [] n hn ?_ h0 res hok
      unfold initial_states
      rw [if_neg (by decide)]
      have hle : ∀ i j, i ≤ s1.length → j ≤ ([] : List Char).length →
          score_matrix "local" sub gap s1 [] i j ≤ 0 := by
        intro i j hi hj
        have hj0 : j = 0 := by simpa using hj
        subst hj0
        match i with
        | 0 => rw [h0]
        | i + 1 =>
          rw [score_matrix_base]
          refine mul_nonpos_iff.mpr (Or.inl ⟨?_, le_of_lt hgap⟩)
          have := Int.natCast_nonneg i
          omega
      have huniq : ∀ i j, i ≤ s1.length → j ≤ ([] : List Char).length →
          score_matrix "local" sub gap s1 [] i j = 0 → i = 0 ∧ j = 0 := by
        intro i j hi hj hz
        have hj0 : j = 0 := by simpa using hj
        subst hj0
        refine ⟨?_, rfl⟩
        match i, hz with
        | 0, _ => rfl
        | i + 1, hz =>
          exfalso
          rw [score_matrix_base] at hz
          rcases mul_eq_zero.mp hz with h | h
          · have := Int.natCast_nonneg i
            omega
          · omega
      rw [matrix_max_eq_zero _ _ _ h0 hle,
        argwhere_eq_origin _ _ _ h0 huniq]
      rfl

/-- C8 counterexample: with seq1 = "", seq2 = "A", gap penalty -2, local
strategy and n = 1 the enumeration returns the single pair of two empty
strings together with score 0 — not the empty result the claim asserts. -/
theorem C8_counterexample :
    traceback "local" (fun _ _ => (1 : Int)) (-2) [] ['A'] 1 =
        Except.ok ([(([] : List Char), ([] : List Char))], 0) ∧
      [(([] : List Char), ([] : List Char))] ≠ ([] : List (List Char × List Char)) :=
  ⟨by rfl, by decide⟩

theorem C8_witness :
    (1 ≤ 1) ∧ (([] : List Char) = [] ∨ (['A'] : List Char) = []) ∧
      ((-2 : Int) < 0) ∧
      traceback "local" (fun _ _ => (1 : Int)) (-2) [] ['A'] 1 =
        Except.ok ([(([] : List Char), ([] : List Char))], 0) ∧
      ([((([] : List Char), ([] : List Char)))], (0 : Int)).1 =
        [(([] : List Char), ([] : List Char))] :=
  ⟨le_refl 1, Or.inl rfl, by decide, by rfl,
    (C8_empty_sequence "local" (fun _ _ => 1) (-2) [] ['A'] 1 (le_refl 1) (Or.inl rfl)).2
      rfl (by decide) ([([], [])], 0) (by rfl)⟩

end SeqAlign
